import Mathlib

/-!
Verification of the glk-synth-esqueleto wavetable synthesiser core.

The development shallowly embeds the loader / DSP helper functions of the
plugin (band-edge computation, HNFPv1 framepack decoding, magnitude-array
construction, DC removal and normalisation, wavetable sampling, phase
accumulation, the wavetable slot store, and the minimum-phase spectral
reconstruction) and proves the testable properties stated in the spec.

Modelling conventions: C++ `int` becomes `ℤ` (or `ℕ` for values read from
unsigned fields), `std::vector`/`juce::AudioBuffer` rows become `List`s or
total index functions, and `float`/`double` arithmetic is idealised as exact
arithmetic over `ℚ` (respectively `ℝ`/`ℂ` for the FFT-based reconstruction,
which uses `log`, `exp`, `cos` and `sin`).  The external JUCE FFT
(`juce::dsp::FFT::perform`) is modelled from the spec, section 4.2: forward
transform `X k = ∑ x n · e^(-2πikn/N)` and unnormalised inverse transform
(the caller scales by `1/N` explicitly, as both the source and the spec do).
-/

namespace GlkSynth

/-! ## Band edges (`linearBandEdges`, part_002 lines 75-95)

`linearBandEdges` partitions `[loBin, hiBin]` into `bands` integer segments.
The C++ computes `loBin + (int) std::floor ((i / bands) * total)` in `double`
arithmetic; this is idealised as exact floor division `(i * total) / bands`
on `ℤ` (both operands are non-negative after the clamps). -/

def linearBandEdges (loBin hiBin bands : ℤ) : List ℤ :=
  let B := max 1 bands
  let lo := max 0 loBin
  let hi := max lo hiBin
  let total := hi - lo
  (lo :: (List.range (B.toNat - 1)).map (fun j : ℕ => lo + (((j : ℤ) + 1) * total) / B)) ++ [hi]

/-! ## Wavetable data model (PluginProcessor.h)

`Wavetable` carries `tableSize`, `frames`, the sample matrix (modelled as a
total index function `frame → sampleIndex → ℚ`, mirroring the
`[frames][tableSize]` float buffer) and a display name. -/

structure Wavetable where
  tableSize : ℤ
  frames : ℤ
  table : ℕ → ℕ → ℚ
  name : String

/-- Slot storage of `BasicInstrumentAudioProcessor`: four wavetable slots,
four stored names and four stored raw JSON strings. -/
structure ProcState where
  wtSlots : Fin 4 → Option Wavetable
  wtSlotName : Fin 4 → String
  wtSlotJson : Fin 4 → String

/-! ## Slot accessors (part_002 lines 723-754)

The C++ accessors are `const` member functions: they read the slot array
under the spin lock and mutate nothing.  They are modelled as returning the
requested value together with the (unchanged) processor state, so that the
"state is left unchanged" part of the contract is part of the statement. -/

def getWtSlot (st : ProcState) (slot : ℤ) : Option Wavetable × ProcState :=
  if h : 0 ≤ slot ∧ slot < 4 then (st.wtSlots ⟨slot.toNat, by omega⟩, st)
  else (none, st)

def getWtSlotName (st : ProcState) (slot : ℤ) : String × ProcState :=
  if h : 0 ≤ slot ∧ slot < 4 then (st.wtSlotName ⟨slot.toNat, by omega⟩, st)
  else ("", st)

def getWtSlotJson (st : ProcState) (slot : ℤ) : String × ProcState :=
  if h : 0 ≤ slot ∧ slot < 4 then (st.wtSlotJson ⟨slot.toNat, by omega⟩, st)
  else ("", st)

/-! ## `loadWtgenSlot` (part_002 lines 686-721)

The loader validates the slot index, the existence of the file and the
non-emptiness of its text, then runs `buildWavetableFromWtgenJson` and, only
when that whole decode chain succeeds, replaces the slot's wavetable
reference, stored JSON and stored name under the lock.  The decode chain
(JSON parse, schema/codec check, base64, framepack decode, reconstruction)
is a separate source function whose outcome is passed in as the function
argument `build`, so that every one of its failure modes is covered by one
universally quantified theorem. -/

def loadWtgenSlot (build : String → Option Wavetable) (st : ProcState) (slot : ℤ)
    (fileExists : Bool) (fileText : String) (fileName : String) : Bool × ProcState :=
  if h : 0 ≤ slot ∧ slot < 4 then
    if fileExists then
      if fileText = "" then (false, st)
      else
        match build fileText with
        | none => (false, st)
        | some wt =>
          (true,
            { wtSlots := Function.update st.wtSlots ⟨slot.toNat, by omega⟩ (some wt)
              wtSlotName := Function.update st.wtSlotName ⟨slot.toNat, by omega⟩ fileName
              wtSlotJson := Function.update st.wtSlotJson ⟨slot.toNat, by omega⟩ fileText })
    else (false, st)
  else (false, st)

/-! ## Voice phase accumulators (part_002 lines 405-422, 461-507)

`phaseWrap` is the per-sample wrap `x - floor x`; `startNote` zeroes all four
oscillator phases; each rendered sample advances every oscillator phase by
its delta and wraps (both the audible and the muted branch of the render
loop do exactly this). -/

def phaseWrap (x : ℚ) : ℚ := x - ⌊x⌋

def startNotePhases : Fin 4 → ℚ := fun _ => 0

def advancePhases (phase phaseDelta : Fin 4 → ℚ) : Fin 4 → ℚ :=
  fun k => phaseWrap (phase k + phaseDelta k)

def renderPhases (phaseDelta : Fin 4 → ℚ) : ℕ → (Fin 4 → ℚ) → (Fin 4 → ℚ)
  | 0, p => p
  | n + 1, p => renderPhases phaseDelta n (advancePhases p phaseDelta)

/-! ## Per-frame magnitude construction (part_004 lines 275-291 and 196-213)

The harmonic loop of `decodeFramepackToWavetable` fills a zeroed
`N/2 + 1`-bin magnitude array: harmonic `h` with code `q` gets amplitude
`(q / 65535) * ampScale` at FFT bin `1 + h` (only when that bin is at most
`N/2`).  `addNoiseBandsToMagnitude` then adds each band amplitude over the
contiguous bin range `[1 + b·bins/B, 1 + (b+1)·bins/B)`, clipped to the
array.  `harmonicPassAux n` is the state of the harmonic loop after the
first `n` iterations; `harmonicPass` runs the full loop. -/

def harmonicPassAux (N : ℕ) (ampScale : ℚ) (harmCodes : List ℕ) (n : ℕ) : List ℚ :=
  (List.range n).foldl
    (fun magHalf h =>
      let amp := ((harmCodes.getD h 0 : ℚ) / 65535) * ampScale
      let bin := 1 + h
      if bin ≤ N / 2 then magHalf.set bin amp else magHalf)
    (List.replicate (N / 2 + 1) 0)

def harmonicPass (N : ℕ) (ampScale : ℚ) (harmCodes : List ℕ) : List ℚ :=
  harmonicPassAux N ampScale harmCodes harmCodes.length

def addNoiseBand (magHalf : List ℚ) (a : ℚ) (ks : List ℕ) : List ℚ :=
  ks.foldl (fun m k => m.set k (m.getD k 0 + a)) magHalf

def addNoiseBandsToMagnitude (magHalf : List ℚ) (bandAmp : List ℚ) : List ℚ :=
  let half := magHalf.length - 1
  let B := bandAmp.length
  if half = 0 ∨ B = 0 then magHalf
  else
    let bins := half
    (List.range B).foldl
      (fun m b =>
        let start := 1 + (b * bins) / B
        let stop := 1 + ((b + 1) * bins) / B
        addNoiseBand m (bandAmp.getD b 0) (List.range' start (min stop (half + 1) - start)))
      magHalf

/-- One decoded frame's magnitude array: the harmonic pass followed by the
additive noise-band pass. -/
def frameMagnitude (N : ℕ) (ampScale : ℚ) (harmCodes : List ℕ) (bandAmp : List ℚ) : List ℚ :=
  addNoiseBandsToMagnitude (harmonicPass N ampScale harmCodes) bandAmp

/-! ## HNFPv1 framepack decoding (part_004 lines 13-48 and 215-346)

Bytes are modelled as a `List ℕ` of byte values.  `Reader` becomes explicit
offset passing: each primitive read either returns the value together with
the advanced offset, or `none` when fewer bytes remain than requested.
`isPowerOfTwo` embeds `wtgen::isPowerOfTwo` (`x > 0 && (x & (x-1)) == 0`);
the same predicate is what part_002's `(1 << round(log2 N)) == N` computes
for positive `int` inputs.  Signed 16-bit reads reinterpret the unsigned
value, exactly like the `(int16_t) u` cast. -/

def isPowerOfTwo (n : ℕ) : Bool := decide (0 < n) && (n &&& (n - 1) == 0)

def readU16LE (bytes : List ℕ) (off : ℕ) : Option (ℕ × ℕ) :=
  if off + 2 ≤ bytes.length then
    some (bytes.getD off 0 + 256 * bytes.getD (off + 1) 0, off + 2)
  else none

def readU16s (bytes : List ℕ) : ℕ → ℕ → Option (List ℕ × ℕ)
  | 0, off => some ([], off)
  | c + 1, off =>
    match readU16LE bytes off with
    | none => none
    | some (v, off1) =>
      match readU16s bytes c off1 with
      | none => none
      | some (vs, off2) => some (v :: vs, off2)

def toI16 (u : ℕ) : ℤ := if u < 32768 then (u : ℤ) else (u : ℤ) - 65536

def readI16s (bytes : List ℕ) (c off : ℕ) : Option (List ℤ × ℕ) :=
  match readU16s bytes c off with
  | none => none
  | some (vs, o) => some (vs.map toI16, o)

/-- The 7-byte magic constant `"HNFPv1\0"`. -/
def hnfpMagic : List ℕ := [72, 78, 70, 80, 118, 49, 0]

/-- The four 16-bit header fields `tableSize, frames, H, B`, read
little-endian right after the magic (offset 7). -/
def parseHeader (bytes : List ℕ) : Option (ℕ × ℕ × ℕ × ℕ) :=
  match readU16LE bytes 7 with
  | none => none
  | some (ts, o1) =>
    match readU16LE bytes o1 with
    | none => none
    | some (fr, o2) =>
      match readU16LE bytes o2 with
      | none => none
      | some (hh, o3) =>
        match readU16LE bytes o3 with
        | none => none
        | some (bb, _) => some (ts, fr, hh, bb)

/-- JSON-declared decode parameters (part_004 `FramepackParams`). -/
structure FramepackParams where
  tableSize : ℤ
  frames : ℤ
  harmonics : ℤ
  noiseBands : ℤ
  ampScale : ℚ
  noiseBandsJson : ℤ
  noiseDbRange : ℚ
  noiseQuantDb : ℚ

/-- Result of a successful framepack parse: the header fields and, per
frame, the raw harmonic codes and (sign-reinterpreted) noise-band codes.
The numeric reconstruction (`frameMagnitude`, minimum phase) runs on these
codes afterwards. -/
structure DecodedFramepack where
  tableSize : ℕ
  frameCount : ℕ
  harmCount : ℕ
  bandCount : ℕ
  frames : List (List ℕ × List ℤ)

/-- One frame: `H` harmonic codes, `B` noise codes, 3 consumed-but-unused
phase-lock words. -/
def readFrame (bytes : List ℕ) (off hh bb : ℕ) :
    Except String ((List ℕ × List ℤ) × ℕ) :=
  match readU16s bytes hh off with
  | none => .error "Framepack: truncado leyendo harmonics."
  | some (hs, o1) =>
    match readI16s bytes bb o1 with
    | none => .error "Framepack: truncado leyendo noise."
    | some (ns, o2) =>
      match readU16s bytes 3 o2 with
      | none => .error "Framepack: truncado leyendo phase-lock."
      | some (_, o3) => .ok ((hs, ns), o3)

def readFrames (bytes : List ℕ) (hh bb : ℕ) :
    ℕ → ℕ → Except String (List (List ℕ × List ℤ) × ℕ)
  | 0, off => .ok ([], off)
  | f + 1, off =>
    match readFrame bytes off hh bb with
    | .error e => .error e
    | .ok (fr, o1) =>
      match readFrames bytes hh bb f o1 with
      | .error e => .error e
      | .ok (frs, o2) => .ok (fr :: frs, o2)

/-- Minimum byte count implied by the header: magic (7) + header (8) +
`frameCount` frames of `2·H + 2·B + 6` bytes. -/
def requiredSize (f hh bb : ℕ) : ℕ := 15 + f * (2 * hh + 2 * bb + 6)

/-- Embeds the parsing stages of `wtgen::decodeFramepackToWavetable` (part_004 lines
215-346): magic, header, dimension/power-of-two validation, declared-vs-JSON
consistency, then the per-frame reads.  (The source's `H < 0 || B < 0`
check is vacuous for values read from unsigned 16-bit fields and is
omitted; the per-frame magnitude construction and reconstruction operate
on the returned codes.) -/
def decodeFramepack (bytes : List ℕ) (fp : FramepackParams) :
    Except String DecodedFramepack :=
  if bytes.length < 7 then .error "Framepack: archivo truncado (sin magic)."
  else if bytes.take 7 ≠ hnfpMagic then .error "Framepack: magic invalido (no es HNFPv1)."
  else
    match parseHeader bytes with
    | none => .error "Framepack: header truncado."
    | some (n, f, hh, bb) =>
      if n = 0 ∨ f = 0 then .error "Framepack: dimensiones invalidas."
      else if ¬ isPowerOfTwo n then .error "Framepack: tableSize debe ser potencia de 2."
      else if 0 < fp.tableSize ∧ fp.tableSize ≠ (n : ℤ) then
        .error "Framepack: tableSize no coincide con JSON."
      else if 0 < fp.frames ∧ fp.frames ≠ (f : ℤ) then
        .error "Framepack: frames no coincide con JSON."
      else
        match readFrames bytes hh bb f 15 with
        | .error e => .error e
        | .ok (frs, _) => .ok ⟨n, f, hh, bb, frs⟩

/-! ## DC removal and normalisation (part_004 lines 168-191)

`removeDCAndNormalize` subtracts each channel's mean from that channel,
computes the global peak (`getMagnitude` is the maximum absolute sample of
a channel), and when the peak exceeds `1e-6` applies the gain `1 / peak` to
the whole buffer. -/

def channelPeak (row : List ℚ) : ℚ := (row.map (fun x => |x|)).foldr max 0

def removeDCAndNormalize (buf : List (List ℚ)) : List (List ℚ) :=
  let ch := buf.length
  let n := (buf.headD []).length
  if ch = 0 ∨ n = 0 then buf
  else
    let dc := buf.map (fun row => row.map (fun x => x - row.sum / (n : ℚ)))
    let peak := (dc.map channelPeak).foldr max 0
    if 1 / 1000000 < peak then dc.map (fun row => row.map (fun x => (1 / peak) * x))
    else dc

/-! ## Wavetable sampling (part_002 lines 509-534)

`sampleWavetable` does 2D bilinear interpolation: `framePos = morph·(F-1)`
selects the two nearest frames (`a = ⌊framePos⌋`, `b = min (a+1) (F-1)`),
`idx = phase·N` selects the two nearest intra-cycle samples, and
`juce::jmap` is the affine blend `start + t·(end-start)`.  C++ `%` on `int`
is truncated division remainder, i.e. `Int.tmod`; row pointers are modelled
by indexing the table function at the (non-negative) row index. -/

def jmap (t a b : ℚ) : ℚ := a + t * (b - a)

/-- Intra-cycle linear interpolation into one fixed row, with exactly the
index arithmetic of `sampleWavetable`. -/
def sampleRowAt (row : ℕ → ℚ) (N : ℤ) (phase01 : ℚ) : ℚ :=
  let idx := phase01 * (N : ℚ)
  let i0 : ℤ := (⌊idx⌋).tmod N
  let i1 : ℤ := (i0 + 1).tmod N
  let sf : ℚ := idx - (⌊idx⌋ : ℚ)
  jmap sf (row i0.toNat) (row i1.toNat)

def sampleWavetable (wt : Wavetable) (phase01 morph : ℚ) : ℚ :=
  let N := wt.tableSize
  let F := wt.frames
  if N ≤ 1 ∨ F ≤ 0 then 0
  else
    let framePos := morph * ((F : ℚ) - 1)
    let a : ℤ := ⌊framePos⌋
    let b : ℤ := min (a + 1) (F - 1)
    let tf : ℚ := framePos - (a : ℚ)
    let idx := phase01 * (N : ℚ)
    let i0 : ℤ := (⌊idx⌋).tmod N
    let i1 : ℤ := (i0 + 1).tmod N
    let sf : ℚ := idx - (⌊idx⌋ : ℚ)
    let sa := jmap sf (wt.table a.toNat i0.toNat) (wt.table a.toNat i1.toNat)
    let sb := jmap sf (wt.table b.toNat i0.toNat) (wt.table b.toNat i1.toNat)
    jmap tf sa sb

/-! ## Minimum-phase reconstruction (part_002 lines 100-163, part_004 lines 89-150)

The pipeline is idealised over `ℂ` with `ZMod N` indexing.  The external
JUCE FFT calls are modelled from the spec (§4.2): the forward transform is
`ZMod.dft` (kernel `e^(-2πi·jk/N)`), and `perform(..., true)` is the
unnormalised inverse `n ↦ ZMod.dft Φ (-n)`, which the source scales by
`1/N` explicitly.  Stages, in source order: build the even log-magnitude
spectrum (with the `1e-12` floor), inverse FFT and scale to get the real
cepstrum, apply the causal minimum-phase window (keep index 0 and `N/2`,
double `(0, N/2)`, zero `(N/2, N)`), forward FFT, exponentiate
termwise `e^a·(cos b + i·sin b)`, inverse FFT, scale, and take real parts. -/

def rfftBinIndex (N : ℕ) [NeZero N] (k : ZMod N) : ℕ :=
  if k.val ≤ N / 2 then k.val else N - k.val

/-- The magnitude floor `eps = 1.0e-12f` (part_002 line 109). -/
noncomputable def minPhaseEps : ℝ := 1 / 10 ^ 12

noncomputable def fullLogSpectrum (N : ℕ) [NeZero N] (mag : ℕ → ℝ) : ZMod N → ℂ :=
  fun k => ((Real.log (max (mag (rfftBinIndex N k)) minPhaseEps) : ℝ) : ℂ)

noncomputable def cepstrum (N : ℕ) [NeZero N] (mag : ℕ → ℝ) : ZMod N → ℂ :=
  fun n => (N : ℂ)⁻¹ * ZMod.dft (fullLogSpectrum N mag) (-n)

noncomputable def causalCepstrum (N : ℕ) [NeZero N] (mag : ℕ → ℝ) : ZMod N → ℂ :=
  fun n =>
    if n.val = 0 then cepstrum N mag n
    else if n.val < N / 2 then 2 * cepstrum N mag n
    else if n.val = N / 2 then cepstrum N mag n
    else 0

noncomputable def minPhaseLogSpectrum (N : ℕ) [NeZero N] (mag : ℕ → ℝ) : ZMod N → ℂ :=
  ZMod.dft (causalCepstrum N mag)

noncomputable def minPhaseSpectrum (N : ℕ) [NeZero N] (mag : ℕ → ℝ) : ZMod N → ℂ :=
  fun k =>
    ((Real.exp ((minPhaseLogSpectrum N mag k).re) : ℝ) : ℂ) *
      (((Real.cos ((minPhaseLogSpectrum N mag k).im) : ℝ) : ℂ) +
        ((Real.sin ((minPhaseLogSpectrum N mag k).im) : ℝ) : ℂ) * Complex.I)

noncomputable def minimumPhaseSignal (N : ℕ) [NeZero N] (mag : ℕ → ℝ) : ZMod N → ℝ :=
  fun n => ((N : ℂ)⁻¹ * ZMod.dft (minPhaseSpectrum N mag) (-n)).re

/-- Modelled from the spec: the testable round-trip property (§8) speaks of
"computing the magnitude spectrum" of the reconstructed cycle; the
exporter-side analysis is not part of src/, so the magnitude spectrum of a
real cycle is modelled as the modulus of its forward DFT. -/
noncomputable def magSpectrum (N : ℕ) [NeZero N] (x : ZMod N → ℝ) : ZMod N → ℝ :=
  fun k => Complex.abs (ZMod.dft (fun n => ((x n : ℝ) : ℂ)) k)

/-- Embeds `minimumPhaseFromMagRfft` (part_002 lines 100-163): the input guards in
source order (`N <= 0`, magnitude length, power-of-two check — part_002's
`(1 << round(log2 N)) == N` test equals `isPowerOfTwo` on positive ints),
then the reconstruction pipeline producing exactly `N` samples. -/
noncomputable def minimumPhaseFromMagRfft (magRfft : List ℝ) (N : ℤ) :
    Option (List ℝ) :=
  if N ≤ 0 then none
  else if magRfft.length ≠ (N / 2 + 1).toNat then none
  else if h : isPowerOfTwo N.toNat = true then
    haveI : NeZero N.toNat := ⟨by
      unfold isPowerOfTwo at h
      rw [Bool.and_eq_true, decide_eq_true_eq] at h
      omega⟩
    some (List.ofFn fun i : Fin N.toNat =>
      minimumPhaseSignal N.toNat (fun j => magRfft.getD j 0) ((i : ℕ) : ZMod N.toNat))
  else none

section Theorems

/-- C3: for `B ≥ 1` and `hiBin ≥ loBin ≥ 0` the band-edge list has `B + 1`
entries, entry `i` equals `loBin + ⌊i·(hiBin-loBin)/B⌋`, the list is
monotonically non-decreasing, its first entry is `loBin` and its last entry
is `hiBin`. -/
theorem linearBandEdges_spec (loBin hiBin bands : ℤ)
    (hB : 1 ≤ bands) (hlo : 0 ≤ loBin) (hhi : loBin ≤ hiBin) :
    (linearBandEdges loBin hiBin bands).length = bands.toNat + 1 ∧
    (∀ i : ℕ, i ≤ bands.toNat →
      (linearBandEdges loBin hiBin bands)[i]? =
        some (loBin + ((i : ℤ) * (hiBin - loBin)) / bands)) ∧
    List.Pairwise (· ≤ ·) (linearBandEdges loBin hiBin bands) ∧
    (linearBandEdges loBin hiBin bands).head? = some loBin ∧
    (linearBandEdges loBin hiBin bands).getLast? = some hiBin := by
  have hBpos : (0 : ℤ) < bands := hB
  have hBne : bands ≠ 0 := by omega
  have hed : linearBandEdges loBin hiBin bands =
      (loBin :: (List.range (bands.toNat - 1)).map
        (fun j : ℕ => loBin + (((j : ℤ) + 1) * (hiBin - loBin)) / bands)) ++ [hiBin] := by
    simp only [linearBandEdges, max_eq_right hB, max_eq_right hlo, max_eq_right hhi]
  have hlen2 : (loBin :: (List.range (bands.toNat - 1)).map
      (fun j : ℕ => loBin + (((j : ℤ) + 1) * (hiBin - loBin)) / bands)).length =
        bands.toNat := by
    simp only [List.length_cons, List.length_map, List.length_range]
    omega
  have hlen : (linearBandEdges loBin hiBin bands).length = bands.toNat + 1 := by
    rw [hed]
    simp only [List.length_append, List.length_singleton, hlen2]
  -- the closed form of every entry
  have hform : ∀ i : ℕ, i ≤ bands.toNat →
      (linearBandEdges loBin hiBin bands)[i]? =
        some (loBin + ((i : ℤ) * (hiBin - loBin)) / bands) := by
    intro i hi'
    rw [hed]
    rcases Nat.lt_or_ge i bands.toNat with hi | hi
    · rw [List.getElem?_append, if_pos (by omega)]
      rcases Nat.eq_zero_or_pos i with rfl | hipos
      · simp
      · obtain ⟨j, rfl⟩ := Nat.exists_eq_add_of_lt hipos
        rw [Nat.zero_add, List.getElem?_cons_succ, List.getElem?_map,
          List.getElem?_range (by omega)]
        simp only [Option.map_some']
        push_cast
        ring_nf
    · have hi2 : i = bands.toNat := by omega
      subst hi2
      rw [List.getElem?_append, if_neg (by omega), hlen2, Nat.sub_self,
        List.getElem?_cons_zero]
      have hv : ((bands.toNat : ℤ) * (hiBin - loBin)) / bands = hiBin - loBin := by
        rw [Int.toNat_of_nonneg (by omega), Int.mul_ediv_cancel_left _ hBne]
      rw [hv]
      congr 1
      omega
  refine ⟨hlen, hform, ?_, ?_, ?_⟩
  · -- monotone: compare the closed forms
    rw [List.pairwise_iff_getElem]
    intro a b ha hb hab
    have ha' : a ≤ bands.toNat := by omega
    have hb' : b ≤ bands.toNat := by omega
    have hva := hform a ha'
    have hvb := hform b hb'
    rw [List.getElem?_eq_getElem ha] at hva
    rw [List.getElem?_eq_getElem hb] at hvb
    rw [Option.some_inj] at hva hvb
    rw [hva, hvb]
    have hmul : (a : ℤ) * (hiBin - loBin) ≤ (b : ℤ) * (hiBin - loBin) := by
      have hc : (a : ℤ) ≤ (b : ℤ) := by exact_mod_cast le_of_lt hab
      exact mul_le_mul_of_nonneg_right hc (by omega)
    have := Int.ediv_le_ediv hBpos hmul
    omega
  · -- head is loBin
    rw [hed]
    simp
  · -- last is hiBin
    rw [hed, List.getLast?_concat]

/-- C9: a voice's oscillator phases always lie in `[0, 1)`: `startNote`
resets all four phases to `0`, `phaseWrap` maps every rational into
`[0, 1)`, and hence after any number of per-sample advances from a note
start (with arbitrary phase deltas) every phase is still in `[0, 1)`. -/
theorem voicePhases_in_unit_interval :
    (∀ k : Fin 4, startNotePhases k = 0) ∧
    (∀ x : ℚ, 0 ≤ phaseWrap x ∧ phaseWrap x < 1) ∧
    (∀ (phaseDelta : Fin 4 → ℚ) (n : ℕ) (k : Fin 4),
      0 ≤ renderPhases phaseDelta n startNotePhases k ∧
      renderPhases phaseDelta n startNotePhases k < 1) := by
  have hwrap : ∀ x : ℚ, 0 ≤ phaseWrap x ∧ phaseWrap x < 1 := by
    intro x
    have h1 : phaseWrap x = Int.fract x := Int.self_sub_floor x
    rw [h1]
    exact ⟨Int.fract_nonneg x, Int.fract_lt_one x⟩
  refine ⟨fun _ => rfl, hwrap, ?_⟩
  intro phaseDelta n
  -- invariant: starting from any in-range phase vector we stay in range
  have key : ∀ (m : ℕ) (p : Fin 4 → ℚ),
      (∀ k, 0 ≤ p k ∧ p k < 1) →
      ∀ k, 0 ≤ renderPhases phaseDelta m p k ∧ renderPhases phaseDelta m p k < 1 := by
    intro m
    induction m with
    | zero => intro p hp k; exact hp k
    | succ m ih =>
      intro p hp k
      exact ih (advancePhases p phaseDelta) (fun j => hwrap _) k
  exact key n startNotePhases (fun k => by constructor <;> norm_num [startNotePhases])

/-- C10: calling `getWtSlot`, `getWtSlotName` or `getWtSlotJson` with a slot
index outside `0..3` returns a null wavetable reference (respectively an
empty string) and leaves the processor's slot state unchanged. -/
theorem slotAccessors_out_of_range (st : ProcState) (slot : ℤ)
    (h : ¬ (0 ≤ slot ∧ slot < 4)) :
    getWtSlot st slot = (none, st) ∧
    getWtSlotName st slot = ("", st) ∧
    getWtSlotJson st slot = ("", st) := by
  refine ⟨?_, ?_, ?_⟩
  · unfold getWtSlot
    rw [dif_neg h]
  · unfold getWtSlotName
    rw [dif_neg h]
  · unfold getWtSlotJson
    rw [dif_neg h]

/-- C10 witness: slot 7 is out of range; all three accessors return the
empty result and the untouched state. -/
theorem slotAccessors_out_of_range_witness :
    getWtSlot ⟨fun _ => none, fun _ => "", fun _ => ""⟩ 7 =
      (none, ⟨fun _ => none, fun _ => "", fun _ => ""⟩) ∧
    getWtSlotName ⟨fun _ => none, fun _ => "", fun _ => ""⟩ 7 =
      ("", ⟨fun _ => none, fun _ => "", fun _ => ""⟩) ∧
    getWtSlotJson ⟨fun _ => none, fun _ => "", fun _ => ""⟩ 7 =
      ("", ⟨fun _ => none, fun _ => "", fun _ => ""⟩) :=
  slotAccessors_out_of_range ⟨fun _ => none, fun _ => "", fun _ => ""⟩ 7 (by omega)

/-- C6: whenever `loadWtgenSlot` fails at any stage (invalid slot, missing
file, unreadable/empty file, or any failure inside the
JSON/schema/codec/base64/framepack/reconstruction chain `build`), it
returns `false` and the whole slot store — every slot's wavetable
reference, name and persisted JSON — is exactly the state before the call;
a slot is replaced only on full success. -/
theorem loadWtgenSlot_failure_preserves_state
    (build : String → Option Wavetable) (st : ProcState) (slot : ℤ)
    (fileExists : Bool) (fileText fileName : String)
    (hfail : (loadWtgenSlot build st slot fileExists fileText fileName).1 = false) :
    (loadWtgenSlot build st slot fileExists fileText fileName).2 = st := by
  by_cases h1 : 0 ≤ slot ∧ slot < 4
  · cases fileExists with
    | false =>
      unfold loadWtgenSlot
      rw [dif_pos h1]
      simp
    | true =>
      by_cases h3 : fileText = ""
      · unfold loadWtgenSlot
        rw [dif_pos h1]
        simp [h3]
      · rcases hb : build fileText with _ | wt
        · unfold loadWtgenSlot
          rw [dif_pos h1]
          simp [h3, hb]
        · exfalso
          unfold loadWtgenSlot at hfail
          rw [dif_pos h1] at hfail
          simp [h3, hb] at hfail
  · unfold loadWtgenSlot
    rw [dif_neg h1]

/-- C6 witness: loading into the out-of-range slot 4 fails and leaves the
(empty) slot store untouched. -/
theorem loadWtgenSlot_failure_preserves_state_witness :
    (loadWtgenSlot (fun _ => none) ⟨fun _ => none, fun _ => "", fun _ => ""⟩ 4
        true "x" "f.json").1 = false ∧
    (loadWtgenSlot (fun _ => none) ⟨fun _ => none, fun _ => "", fun _ => ""⟩ 4
        true "x" "f.json").2 = ⟨fun _ => none, fun _ => "", fun _ => ""⟩ :=
  ⟨rfl, loadWtgenSlot_failure_preserves_state (fun _ => none)
    ⟨fun _ => none, fun _ => "", fun _ => ""⟩ 4 true "x" "f.json" rfl⟩

/-- C3 witness: `loBin = 2`, `hiBin = 10`, `B = 4`. -/
theorem linearBandEdges_spec_witness :
    (1 : ℤ) ≤ 4 ∧ (0 : ℤ) ≤ 2 ∧ (2 : ℤ) ≤ 10 ∧
    ((linearBandEdges 2 10 4).length = (4 : ℤ).toNat + 1 ∧
     (∀ i : ℕ, i ≤ (4 : ℤ).toNat →
       (linearBandEdges 2 10 4)[i]? = some (2 + ((i : ℤ) * (10 - 2)) / 4)) ∧
     List.Pairwise (· ≤ ·) (linearBandEdges 2 10 4) ∧
     (linearBandEdges 2 10 4).head? = some 2 ∧
     (linearBandEdges 2 10 4).getLast? = some 10) :=
  ⟨by norm_num, by norm_num, by norm_num,
    linearBandEdges_spec 2 10 4 (by norm_num) (by norm_num) (by norm_num)⟩

theorem le_foldr_max (l : List ℚ) (b x : ℚ) (hx : x ∈ l) : x ≤ l.foldr max b := by
  induction l with
  | nil => cases hx
  | cons a t ih =>
    rcases List.mem_cons.mp hx with rfl | hx'
    · exact le_max_left _ _
    · exact le_trans (ih hx') (le_max_right _ _)

theorem sum_map_sub (row : List ℚ) (m : ℚ) :
    (row.map (fun x => x - m)).sum = row.sum - row.length * m := by
  induction row with
  | nil => simp
  | cons a t ih =>
    simp only [List.map_cons, List.sum_cons, ih, List.length_cons]
    push_cast
    ring

theorem sum_map_mul (g : ℚ) (row : List ℚ) :
    (row.map (fun x => g * x)).sum = g * row.sum := by
  induction row with
  | nil => simp
  | cons a t ih =>
    simp only [List.map_cons, List.sum_cons, ih]
    ring

theorem harmonicPassAux_succ (N : ℕ) (s : ℚ) (codes : List ℕ) (n : ℕ) :
    harmonicPassAux N s codes (n + 1) =
      if 1 + n ≤ N / 2
        then (harmonicPassAux N s codes n).set (1 + n) (((codes.getD n 0 : ℚ) / 65535) * s)
        else harmonicPassAux N s codes n := by
  rw [harmonicPassAux, harmonicPassAux, List.range_succ, List.foldl_append,
    List.foldl_cons, List.foldl_nil]

theorem harmonicPassAux_length (N : ℕ) (s : ℚ) (codes : List ℕ) (n : ℕ) :
    (harmonicPassAux N s codes n).length = N / 2 + 1 := by
  induction n with
  | zero => simp [harmonicPassAux]
  | succ n ih =>
    rw [harmonicPassAux_succ]
    split
    · rw [List.length_set]
      exact ih
    · exact ih

theorem harmonicPassAux_zero (N : ℕ) (s : ℚ) (codes : List ℕ) (n : ℕ) :
    (harmonicPassAux N s codes n)[0]? = some 0 := by
  induction n with
  | zero => simp [harmonicPassAux, List.getElem?_replicate]
  | succ n ih =>
    rw [harmonicPassAux_succ]
    split
    · rw [List.getElem?_set_ne (by omega)]
      exact ih
    · exact ih

theorem harmonicPassAux_get (N : ℕ) (s : ℚ) (codes : List ℕ) (n h : ℕ)
    (hh : h < n) (hbin : 1 + h ≤ N / 2) :
    (harmonicPassAux N s codes n)[1 + h]? =
      some (((codes.getD h 0 : ℚ) / 65535) * s) := by
  induction n with
  | zero => omega
  | succ n ih =>
    rw [harmonicPassAux_succ]
    rcases Nat.lt_or_ge h n with hlt | hge
    · split
      · rw [List.getElem?_set_ne (by omega)]
        exact ih hlt
      · exact ih hlt
    · have heq : h = n := by omega
      subst heq
      rw [if_pos hbin, List.getElem?_set_self']
      rw [List.getElem?_eq_getElem
        (show 1 + h < (harmonicPassAux N s codes h).length by
          rw [harmonicPassAux_length]; omega)]
      simp

theorem addNoiseBand_getElem?_zero (m : List ℚ) (a : ℚ) (ks : List ℕ)
    (hks : ∀ k ∈ ks, 1 ≤ k) :
    (addNoiseBand m a ks)[0]? = m[0]? := by
  induction ks generalizing m with
  | nil => rfl
  | cons k t ih =>
    rw [show addNoiseBand m a (k :: t) = addNoiseBand (m.set k (m.getD k 0 + a)) a t from rfl]
    rw [ih _ (fun j hj => hks j (List.mem_cons_of_mem _ hj))]
    exact List.getElem?_set_ne (by have := hks k (List.mem_cons_self _ _); omega)

theorem addNoiseBands_getElem?_zero (magHalf bandAmp : List ℚ) :
    (addNoiseBandsToMagnitude magHalf bandAmp)[0]? = magHalf[0]? := by
  simp only [addNoiseBandsToMagnitude]
  split
  · rfl
  · have key : ∀ (l : List ℕ) (m : List ℚ),
        (l.foldl (fun m b =>
          addNoiseBand m (bandAmp.getD b 0)
            (List.range' (1 + (b * (magHalf.length - 1)) / bandAmp.length)
              (min (1 + ((b + 1) * (magHalf.length - 1)) / bandAmp.length)
                  ((magHalf.length - 1) + 1) -
                (1 + (b * (magHalf.length - 1)) / bandAmp.length)))) m)[0]? = m[0]? := by
      intro l
      induction l with
      | nil => intro m; rfl
      | cons b t ih =>
        intro m
        rw [List.foldl_cons, ih]
        apply addNoiseBand_getElem?_zero
        intro k hk
        obtain ⟨h1, _⟩ := List.mem_range'_1.mp hk
        exact le_trans (Nat.le_add_right 1 _) h1
    exact key _ _

/-- C4: in the decoded per-frame magnitude array, harmonic code `q` at
harmonic index `h` is mapped to the linear magnitude
`(q / 65535) * ampScale` and assigned to FFT bin `1 + h` (whenever that bin
exists, i.e. `1 + h ≤ N/2`), and bin 0 (DC) of the resulting magnitude
array — harmonics plus additive noise bands — is always zero. -/
theorem harmonicDecode_spec (N : ℕ) (ampScale : ℚ) (codes : List ℕ) (bandAmp : List ℚ) :
    (∀ h : ℕ, h < codes.length → 1 + h ≤ N / 2 →
      (harmonicPass N ampScale codes)[1 + h]? =
        some (((codes.getD h 0 : ℚ) / 65535) * ampScale)) ∧
    (frameMagnitude N ampScale codes bandAmp)[0]? = some 0 := by
  constructor
  · intro h hh hbin
    exact harmonicPassAux_get N ampScale codes codes.length h hh hbin
  · rw [frameMagnitude, addNoiseBands_getElem?_zero]
    exact harmonicPassAux_zero N ampScale codes codes.length

/-- C4 witness: `N = 8`, full-scale code 65535 at harmonic 0 decodes to
amplitude `1 * ampScale` in bin 1; DC stays zero. -/
theorem harmonicDecode_spec_witness :
    ((0 : ℕ) < ([65535, 32768] : List ℕ).length ∧ 1 + 0 ≤ 8 / 2) ∧
    (harmonicPass 8 1 [65535, 32768])[1 + 0]? =
      some (((([65535, 32768] : List ℕ).getD 0 0 : ℚ) / 65535) * 1) ∧
    (frameMagnitude 8 1 [65535, 32768] [1/2])[0]? = some 0 :=
  ⟨⟨by norm_num, by norm_num⟩,
    (harmonicDecode_spec 8 1 [65535, 32768] [1/2]).1 0 (by norm_num) (by norm_num),
    (harmonicDecode_spec 8 1 [65535, 32768] [1/2]).2⟩

/-- C7: after `removeDCAndNormalize`, every channel (wavetable row) sums to
zero — i.e. has exactly zero mean — and every sample has absolute value at
most 1, for any non-empty buffer of equal-length non-empty rows. -/
theorem removeDCAndNormalize_spec (buf : List (List ℚ))
    (hne : buf ≠ [])
    (hn : (buf.headD []).length ≠ 0)
    (hlen : ∀ row ∈ buf, row.length = (buf.headD []).length) :
    (∀ row ∈ removeDCAndNormalize buf, row.sum = 0) ∧
    (∀ row ∈ removeDCAndNormalize buf, ∀ x ∈ row, |x| ≤ 1) := by
  have hnq : ((buf.headD []).length : ℚ) ≠ 0 := Nat.cast_ne_zero.mpr hn
  have hch : ¬ (buf.length = 0 ∨ (buf.headD []).length = 0) := by
    rintro (h | h)
    · exact hne (List.length_eq_zero.mp h)
    · exact hn h
  have hval : removeDCAndNormalize buf =
      if 1 / 1000000 <
          ((buf.map (fun row => row.map (fun x =>
              x - row.sum / ((buf.headD []).length : ℚ)))).map channelPeak).foldr max 0
        then (buf.map (fun row => row.map (fun x =>
                x - row.sum / ((buf.headD []).length : ℚ)))).map
              (fun row => row.map (fun x =>
                (1 / (((buf.map (fun row => row.map (fun x =>
                    x - row.sum / ((buf.headD []).length : ℚ)))).map
                      channelPeak).foldr max 0)) * x))
        else buf.map (fun row => row.map (fun x =>
              x - row.sum / ((buf.headD []).length : ℚ))) := by
    simp only [removeDCAndNormalize]
    rw [if_neg hch]
  -- zero mean on the DC-removed buffer
  have hdc_sum : ∀ row ∈ buf.map (fun row => row.map (fun x =>
      x - row.sum / ((buf.headD []).length : ℚ))), row.sum = 0 := by
    intro row hr
    obtain ⟨r0, hr0, rfl⟩ := List.mem_map.mp hr
    rw [sum_map_sub, hlen r0 hr0, mul_comm, div_mul_cancel₀ _ hnq, sub_self]
  -- every sample of the DC-removed buffer is bounded by the global peak
  have hdc_abs : ∀ row ∈ buf.map (fun row => row.map (fun x =>
      x - row.sum / ((buf.headD []).length : ℚ))), ∀ x ∈ row,
      |x| ≤ ((buf.map (fun row => row.map (fun x =>
        x - row.sum / ((buf.headD []).length : ℚ)))).map channelPeak).foldr max 0 := by
    intro row hr x hx
    have h1 : |x| ≤ channelPeak row :=
      le_foldr_max _ _ _ (List.mem_map.mpr ⟨x, hx, rfl⟩)
    have h2 : channelPeak row ≤ _ :=
      le_foldr_max ((buf.map _).map channelPeak) 0 (channelPeak row)
        (List.mem_map.mpr ⟨row, hr, rfl⟩)
    exact le_trans h1 h2
  rw [hval]
  by_cases hp : 1 / 1000000 <
      ((buf.map (fun row => row.map (fun x =>
          x - row.sum / ((buf.headD []).length : ℚ)))).map channelPeak).foldr max 0
  · rw [if_pos hp]
    have hppos : 0 < ((buf.map (fun row => row.map (fun x =>
        x - row.sum / ((buf.headD []).length : ℚ)))).map channelPeak).foldr max 0 := by
      have : (0 : ℚ) < 1 / 1000000 := by norm_num
      linarith
    constructor
    · intro row hr
      obtain ⟨r1, hr1, rfl⟩ := List.mem_map.mp hr
      rw [sum_map_mul, hdc_sum r1 hr1, mul_zero]
    · intro row hr x hx
      obtain ⟨r1, hr1, rfl⟩ := List.mem_map.mp hr
      obtain ⟨y, hy, rfl⟩ := List.mem_map.mp hx
      rw [abs_mul, abs_of_pos (by positivity : (0:ℚ) < 1 / _)]
      have hb := hdc_abs r1 hr1 y hy
      calc 1 / _ * |y| ≤ 1 / _ * _ := by
            exact mul_le_mul_of_nonneg_left hb (by positivity)
        _ = 1 := one_div_mul_cancel (ne_of_gt hppos)
  · rw [if_neg hp]
    refine ⟨hdc_sum, ?_⟩
    intro row hr x hx
    have hb := hdc_abs row hr x hx
    have hple : ((buf.map (fun row => row.map (fun x =>
        x - row.sum / ((buf.headD []).length : ℚ)))).map channelPeak).foldr max 0 ≤
          1 / 1000000 := le_of_not_lt hp
    linarith

/-- C7 witness: the single-channel buffer `[[1, 0]]` normalises to a row
with zero sum and peak at most 1. -/
theorem removeDCAndNormalize_spec_witness :
    (([[ (1 : ℚ), 0 ]] : List (List ℚ)) ≠ [] ∧
      (([[ (1 : ℚ), 0 ]] : List (List ℚ)).headD []).length ≠ 0 ∧
      ∀ row ∈ ([[ (1 : ℚ), 0 ]] : List (List ℚ)),
        row.length = (([[ (1 : ℚ), 0 ]] : List (List ℚ)).headD []).length) ∧
    ((∀ row ∈ removeDCAndNormalize [[ (1 : ℚ), 0 ]], row.sum = 0) ∧
     (∀ row ∈ removeDCAndNormalize [[ (1 : ℚ), 0 ]], ∀ x ∈ row, |x| ≤ 1)) :=
  ⟨⟨by decide, by decide, by decide⟩,
    removeDCAndNormalize_spec [[ (1 : ℚ), 0 ]] (by decide) (by decide) (by decide)⟩

/-- C8: with `frameCount ≥ 1`, `tableSize ≥ 2` and phase in `[0,1)`,
sampling at morph position 0 equals intra-cycle interpolation into frame 0
only, and sampling at morph position 1 equals intra-cycle interpolation
into the last frame only (`framePos = morph·(frameCount-1)` lands exactly
on the first, respectively last, frame with zero cross-frame blend). -/
theorem sampleWavetable_morph_endpoints (wt : Wavetable) (phase01 : ℚ)
    (hF : 1 ≤ wt.frames) (hN : 2 ≤ wt.tableSize)
    (hp0 : 0 ≤ phase01) (hp1 : phase01 < 1) :
    sampleWavetable wt phase01 0 = sampleRowAt (wt.table 0) wt.tableSize phase01 ∧
    sampleWavetable wt phase01 1 =
      sampleRowAt (wt.table (wt.frames - 1).toNat) wt.tableSize phase01 := by
  have hguard : ¬ (wt.tableSize ≤ 1 ∨ wt.frames ≤ 0) := by omega
  constructor
  · simp only [sampleWavetable, sampleRowAt, jmap]
    rw [if_neg hguard]
    have h1 : (0 : ℚ) * ((wt.frames : ℚ) - 1) = 0 := by ring
    rw [h1]
    norm_num
  · simp only [sampleWavetable, sampleRowAt, jmap]
    rw [if_neg hguard]
    have h1 : (1 : ℚ) * ((wt.frames : ℚ) - 1) = ((wt.frames - 1 : ℤ) : ℚ) := by
      push_cast
      ring
    rw [h1, Int.floor_intCast]
    have h2 : min (wt.frames - 1 + 1) (wt.frames - 1) = wt.frames - 1 := by omega
    rw [h2]
    norm_num

/-- C8 witness: a concrete 2-frame, 4-sample table at phase 1/2. -/
theorem sampleWavetable_morph_endpoints_witness :
    ((1 : ℤ) ≤ (2 : ℤ) ∧ (2 : ℤ) ≤ (4 : ℤ) ∧ (0 : ℚ) ≤ 1/2 ∧ (1/2 : ℚ) < 1) ∧
    (sampleWavetable ⟨4, 2, fun f i => (f : ℚ) + i, "w"⟩ (1/2) 0 =
        sampleRowAt ((⟨4, 2, fun f i => (f : ℚ) + i, "w"⟩ : Wavetable).table 0) 4 (1/2) ∧
     sampleWavetable ⟨4, 2, fun f i => (f : ℚ) + i, "w"⟩ (1/2) 1 =
        sampleRowAt ((⟨4, 2, fun f i => (f : ℚ) + i, "w"⟩ : Wavetable).table
          (((2 : ℤ) - 1).toNat)) 4 (1/2)) :=
  ⟨⟨by norm_num, by norm_num, by norm_num, by norm_num⟩,
    sampleWavetable_morph_endpoints ⟨4, 2, fun f i => (f : ℚ) + i, "w"⟩ (1/2)
      (by norm_num) (by norm_num) (by norm_num) (by norm_num)⟩

theorem isPowerOfTwo_iff (n : ℕ) : isPowerOfTwo n = true ↔ ∃ k, n = 2 ^ k := by
  unfold isPowerOfTwo
  rw [Bool.and_eq_true, decide_eq_true_eq, beq_iff_eq]
  constructor
  · rintro ⟨hpos, hland⟩
    refine ⟨n.log2, ?_⟩
    by_contra hne
    have h1 : 2 ^ n.log2 ≤ n := Nat.log2_self_le (by omega)
    have h2 : n < 2 ^ (n.log2 + 1) := Nat.lt_log2_self
    have h2' : n < 2 * 2 ^ n.log2 := by
      rw [pow_succ] at h2
      omega
    have hgt : 2 ^ n.log2 < n := lt_of_le_of_ne h1 (fun h => hne h.symm)
    have hb1 : n.testBit n.log2 = true := by
      rw [Nat.testBit_to_div_mod]
      have hd : n / 2 ^ n.log2 = 1 := by
        apply Nat.div_eq_of_lt_le <;> omega
      simp [hd]
    have hb2 : (n - 1).testBit n.log2 = true := by
      rw [Nat.testBit_to_div_mod]
      have hd : (n - 1) / 2 ^ n.log2 = 1 := by
        apply Nat.div_eq_of_lt_le <;> omega
      simp [hd]
    have hbit : (n &&& (n - 1)).testBit n.log2 = true := by
      rw [Nat.testBit_land, hb1, hb2]
      rfl
    rw [hland] at hbit
    rw [Nat.zero_testBit] at hbit
    exact Bool.false_ne_true hbit
  · rintro ⟨k, rfl⟩
    refine ⟨by positivity, ?_⟩
    apply Nat.eq_of_testBit_eq
    intro i
    rw [Nat.testBit_land, Nat.testBit_two_pow, Nat.testBit_two_pow_sub_one,
      Nat.zero_testBit]
    by_cases h : k = i <;> simp [h]

theorem readU16s_some (bytes : List ℕ) :
    ∀ (c off : ℕ) (vs : List ℕ) (o : ℕ), readU16s bytes c off = some (vs, o) →
      o = off + 2 * c ∧ vs.length = c ∧ (c = 0 ∨ off + 2 * c ≤ bytes.length) := by
  intro c
  induction c with
  | zero =>
    intro off vs o hv
    simp only [readU16s, Option.some.injEq, Prod.mk.injEq] at hv
    obtain ⟨h1, h2⟩ := hv
    exact ⟨by omega, by simp [← h1], Or.inl rfl⟩
  | succ c ih =>
    intro off vs o hv
    rcases hu : readU16LE bytes off with _ | ⟨v, off1⟩
    · simp only [readU16s, hu] at hv
      exact absurd hv (by simp)
    rcases hr : readU16s bytes c off1 with _ | ⟨vs2, off2⟩
    · simp only [readU16s, hu, hr] at hv
      exact absurd hv (by simp)
    simp only [readU16s, hu, hr, Option.some.injEq, Prod.mk.injEq] at hv
    obtain ⟨hv1, hv2⟩ := hv
    have hle : off + 2 ≤ bytes.length ∧ off1 = off + 2 := by
      by_cases hq : off + 2 ≤ bytes.length
      · rw [readU16LE, if_pos hq] at hu
        simp only [Option.some.injEq, Prod.mk.injEq] at hu
        exact ⟨hq, hu.2.symm⟩
      · rw [readU16LE, if_neg hq] at hu
        exact absurd hu (by simp)
    obtain ⟨hq, hoff1⟩ := hle
    subst hoff1
    obtain ⟨ho, hlen, hor⟩ := ih (off + 2) vs2 off2 hr
    refine ⟨by omega, by rw [← hv1]; simp [hlen], Or.inr ?_⟩
    rcases hor with h0 | h2
    · omega
    · omega

theorem readU16s_ok (bytes : List ℕ) :
    ∀ (c off : ℕ), off + 2 * c ≤ bytes.length →
      ∃ vs, readU16s bytes c off = some (vs, off + 2 * c) := by
  intro c
  induction c with
  | zero =>
    intro off _
    exact ⟨[], by simp [readU16s]⟩
  | succ c ih =>
    intro off h
    obtain ⟨vs, hvs⟩ := ih (off + 2) (by omega)
    have harith : off + 2 + 2 * c = off + 2 * (c + 1) := by ring
    rw [harith] at hvs
    refine ⟨(bytes.getD off 0 + 256 * bytes.getD (off + 1) 0) :: vs, ?_⟩
    simp only [readU16s, readU16LE, if_pos (show off + 2 ≤ bytes.length by omega), hvs]

theorem readI16s_some (bytes : List ℕ) (c off : ℕ) (ns : List ℤ) (o : ℕ)
    (h : readI16s bytes c off = some (ns, o)) :
    o = off + 2 * c ∧ (c = 0 ∨ off + 2 * c ≤ bytes.length) := by
  unfold readI16s at h
  rcases hr : readU16s bytes c off with _ | ⟨vs, o2⟩
  · rw [hr] at h
    exact absurd h (by simp)
  · rw [hr] at h
    simp only [Option.some.injEq, Prod.mk.injEq] at h
    obtain ⟨-, rfl⟩ := h
    obtain ⟨ho, -, hor⟩ := readU16s_some bytes c off vs o2 hr
    exact ⟨ho, hor⟩

theorem readI16s_ok (bytes : List ℕ) (c off : ℕ) (h : off + 2 * c ≤ bytes.length) :
    ∃ ns, readI16s bytes c off = some (ns, off + 2 * c) := by
  obtain ⟨vs, hvs⟩ := readU16s_ok bytes c off h
  exact ⟨vs.map toI16, by simp [readI16s, hvs]⟩

theorem readFrame_ok (bytes : List ℕ) (off hh bb : ℕ)
    (h : off + (2 * hh + 2 * bb + 6) ≤ bytes.length) :
    ∃ fr, readFrame bytes off hh bb = .ok (fr, off + (2 * hh + 2 * bb + 6)) := by
  obtain ⟨hs, hhs⟩ := readU16s_ok bytes hh off (by omega)
  obtain ⟨ns, hns⟩ := readI16s_ok bytes bb (off + 2 * hh) (by omega)
  obtain ⟨ps, hps⟩ := readU16s_ok bytes 3 (off + 2 * hh + 2 * bb) (by omega)
  have harith : off + 2 * hh + 2 * bb + 2 * 3 = off + (2 * hh + 2 * bb + 6) := by ring
  refine ⟨(hs, ns), ?_⟩
  simp only [readFrame, hhs, hns, harith ▸ hps]

theorem readFrame_err (bytes : List ℕ) (off hh bb : ℕ)
    (h : bytes.length < off + (2 * hh + 2 * bb + 6)) :
    ∃ e, readFrame bytes off hh bb = .error e := by
  rcases hhs : readU16s bytes hh off with _ | ⟨hs, o1⟩
  · exact ⟨"Framepack: truncado leyendo harmonics.", by simp [readFrame, hhs]⟩
  obtain ⟨ho1, -, -⟩ := readU16s_some bytes hh off hs o1 hhs
  subst ho1
  rcases hns : readI16s bytes bb (off + 2 * hh) with _ | ⟨ns, o2⟩
  · exact ⟨"Framepack: truncado leyendo noise.", by simp [readFrame, hhs, hns]⟩
  obtain ⟨ho2, -⟩ := readI16s_some bytes bb (off + 2 * hh) ns o2 hns
  subst ho2
  rcases hps : readU16s bytes 3 (off + 2 * hh + 2 * bb) with _ | ⟨ps, o3⟩
  · exact ⟨"Framepack: truncado leyendo phase-lock.", by simp [readFrame, hhs, hns, hps]⟩
  obtain ⟨-, -, hor3⟩ := readU16s_some bytes 3 (off + 2 * hh + 2 * bb) ps o3 hps
  exfalso
  rcases hor3 with h3 | h3
  · omega
  · omega

theorem readFrames_ok (bytes : List ℕ) (hh bb : ℕ) :
    ∀ (f off : ℕ), off + f * (2 * hh + 2 * bb + 6) ≤ bytes.length →
      ∃ frs o, readFrames bytes hh bb f off = .ok (frs, o) ∧ frs.length = f := by
  intro f
  induction f with
  | zero =>
    intro off _
    exact ⟨[], off, rfl, rfl⟩
  | succ f ih =>
    intro off h
    have hmul : (f + 1) * (2 * hh + 2 * bb + 6) =
        f * (2 * hh + 2 * bb + 6) + (2 * hh + 2 * bb + 6) := by ring
    obtain ⟨fr, hfr⟩ := readFrame_ok bytes off hh bb (by omega)
    obtain ⟨frs, o, hfrs, hlen⟩ := ih (off + (2 * hh + 2 * bb + 6)) (by omega)
    refine ⟨fr :: frs, o, ?_, by simp [hlen]⟩
    simp only [readFrames, hfr, hfrs]

theorem readFrames_err (bytes : List ℕ) (hh bb : ℕ) :
    ∀ (f off : ℕ), 0 < f → bytes.length < off + f * (2 * hh + 2 * bb + 6) →
      ∃ e, readFrames bytes hh bb f off = .error e := by
  intro f
  induction f with
  | zero =>
    intro off h0
    omega
  | succ f ih =>
    intro off _ h
    have hmul : (f + 1) * (2 * hh + 2 * bb + 6) =
        f * (2 * hh + 2 * bb + 6) + (2 * hh + 2 * bb + 6) := by ring
    by_cases hcut : bytes.length < off + (2 * hh + 2 * bb + 6)
    · obtain ⟨e, he⟩ := readFrame_err bytes off hh bb hcut
      exact ⟨e, by simp [readFrames, he]⟩
    · push_neg at hcut
      obtain ⟨fr, hfr⟩ := readFrame_ok bytes off hh bb hcut
      have hf0 : 0 < f := by
        by_contra hf
        have hf' : f = 0 := by omega
        subst hf'
        omega
      obtain ⟨e, he⟩ := ih (off + (2 * hh + 2 * bb + 6)) hf0 (by omega)
      exact ⟨e, by simp [readFrames, hfr, he]⟩

theorem readFrame_error_msg (bytes : List ℕ) (off hh bb : ℕ) (e : String)
    (h : readFrame bytes off hh bb = .error e) : 0 < e.length := by
  rcases h1 : readU16s bytes hh off with _ | ⟨hs, o1⟩
  · simp only [readFrame, h1, Except.error.injEq] at h
    rw [← h]
    decide
  rcases h2 : readI16s bytes bb o1 with _ | ⟨ns, o2⟩
  · simp only [readFrame, h1, h2, Except.error.injEq] at h
    rw [← h]
    decide
  rcases h3 : readU16s bytes 3 o2 with _ | ⟨ps, o3⟩
  · simp only [readFrame, h1, h2, h3, Except.error.injEq] at h
    rw [← h]
    decide
  · simp only [readFrame, h1, h2, h3] at h
    exact absurd h (by simp)

theorem readFrames_error_msg (bytes : List ℕ) (hh bb : ℕ) :
    ∀ (f off : ℕ) (e : String), readFrames bytes hh bb f off = .error e →
      0 < e.length := by
  intro f
  induction f with
  | zero =>
    intro off e h
    exact absurd h (by simp [readFrames])
  | succ f ih =>
    intro off e h
    rcases h1 : readFrame bytes off hh bb with e1 | ⟨fr, o1⟩
    · simp only [readFrames, h1, Except.error.injEq] at h
      exact h ▸ readFrame_error_msg bytes off hh bb e1 h1
    rcases h2 : readFrames bytes hh bb f o1 with e2 | ⟨frs, o2⟩
    · simp only [readFrames, h1, h2, Except.error.injEq] at h
      exact h ▸ ih o1 e2 h2
    · simp only [readFrames, h1, h2] at h
      exact absurd h (by simp)

/-- C5: the framepack parser returns a decoded table only when the magic is
intact, the declared `tableSize` is a positive power of two, the declared
dimensions are consistent, and the payload holds at least the bytes the
header demands (`15 + frames·(2H + 2B + 6)`), in which case it delivers
exactly `frames` decoded frames; every failure — malformed magic,
non-power-of-two size, truncation anywhere including mid-frame — is a
structured `Except.error` with a non-empty message, never a constructed
table. -/
theorem decodeFramepack_spec (bytes : List ℕ) (fp : FramepackParams) :
    (∀ d, decodeFramepack bytes fp = .ok d →
      7 ≤ bytes.length ∧
      bytes.take 7 = hnfpMagic ∧
      parseHeader bytes = some (d.tableSize, d.frameCount, d.harmCount, d.bandCount) ∧
      0 < d.tableSize ∧ 0 < d.frameCount ∧
      isPowerOfTwo d.tableSize = true ∧
      requiredSize d.frameCount d.harmCount d.bandCount ≤ bytes.length ∧
      d.frames.length = d.frameCount) ∧
    (∀ e, decodeFramepack bytes fp = .error e → 0 < e.length) := by
  constructor
  · intro d hok
    unfold decodeFramepack at hok
    by_cases h7 : bytes.length < 7
    · rw [if_pos h7] at hok
      exact absurd hok (by simp)
    rw [if_neg h7] at hok
    by_cases hm : bytes.take 7 ≠ hnfpMagic
    · rw [if_pos hm] at hok
      exact absurd hok (by simp)
    rw [if_neg hm] at hok
    push_neg at hm
    rcases hhd : parseHeader bytes with _ | ⟨n, f, hcnt, bcnt⟩
    · simp only [hhd] at hok
      exact absurd hok (by simp)
    simp only [hhd] at hok
    by_cases hdim : n = 0 ∨ f = 0
    · rw [if_pos hdim] at hok
      exact absurd hok (by simp)
    rw [if_neg hdim] at hok
    by_cases hp2 : ¬ isPowerOfTwo n
    · rw [if_pos hp2] at hok
      exact absurd hok (by simp)
    rw [if_neg hp2] at hok
    by_cases hts : 0 < fp.tableSize ∧ fp.tableSize ≠ (n : ℤ)
    · rw [if_pos hts] at hok
      exact absurd hok (by simp)
    rw [if_neg hts] at hok
    by_cases hfr : 0 < fp.frames ∧ fp.frames ≠ (f : ℤ)
    · rw [if_pos hfr] at hok
      exact absurd hok (by simp)
    rw [if_neg hfr] at hok
    rcases hrd : readFrames bytes hcnt bcnt f 15 with e | ⟨frs, o⟩
    · simp only [hrd] at hok
      exact absurd hok (by simp)
    simp only [hrd] at hok
    simp only [Except.ok.injEq] at hok
    subst hok
    have hsize : requiredSize f hcnt bcnt ≤ bytes.length := by
      by_contra hlt
      push_neg at hlt
      obtain ⟨e, he⟩ := readFrames_err bytes hcnt bcnt f 15 (by omega)
        (by unfold requiredSize at hlt; omega)
      rw [he] at hrd
      exact absurd hrd (by simp)
    have hflen : frs.length = f := by
      obtain ⟨frs2, o2, hfrs2, hlen2⟩ := readFrames_ok bytes hcnt bcnt f 15
        (by unfold requiredSize at hsize; omega)
      rw [hfrs2] at hrd
      simp only [Except.ok.injEq, Prod.mk.injEq] at hrd
      rw [← hrd.1]
      exact hlen2
    refine ⟨by omega, hm, ?_, ?_, ?_, ?_, ?_, ?_⟩
    · rfl
    · exact (show 0 < n by omega)
    · exact (show 0 < f by omega)
    · exact (show isPowerOfTwo n = true by simpa using hp2)
    · exact hsize
    · exact hflen
  · intro e herr
    unfold decodeFramepack at herr
    by_cases h7 : bytes.length < 7
    · rw [if_pos h7] at herr
      simp only [Except.error.injEq] at herr
      rw [← herr]
      decide
    rw [if_neg h7] at herr
    by_cases hm : bytes.take 7 ≠ hnfpMagic
    · rw [if_pos hm] at herr
      simp only [Except.error.injEq] at herr
      rw [← herr]
      decide
    rw [if_neg hm] at herr
    rcases hhd : parseHeader bytes with _ | ⟨n, f, hcnt, bcnt⟩
    · simp only [hhd] at herr
      simp only [Except.error.injEq] at herr
      rw [← herr]
      decide
    simp only [hhd] at herr
    by_cases hdim : n = 0 ∨ f = 0
    · rw [if_pos hdim] at herr
      simp only [Except.error.injEq] at herr
      rw [← herr]
      decide
    rw [if_neg hdim] at herr
    by_cases hp2 : ¬ isPowerOfTwo n
    · rw [if_pos hp2] at herr
      simp only [Except.error.injEq] at herr
      rw [← herr]
      decide
    rw [if_neg hp2] at herr
    by_cases hts : 0 < fp.tableSize ∧ fp.tableSize ≠ (n : ℤ)
    · rw [if_pos hts] at herr
      simp only [Except.error.injEq] at herr
      rw [← herr]
      decide
    rw [if_neg hts] at herr
    by_cases hfr : 0 < fp.frames ∧ fp.frames ≠ (f : ℤ)
    · rw [if_pos hfr] at herr
      simp only [Except.error.injEq] at herr
      rw [← herr]
      decide
    rw [if_neg hfr] at herr
    rcases hrd : readFrames bytes hcnt bcnt f 15 with e2 | ⟨frs, o⟩
    · simp only [hrd] at herr
      simp only [Except.error.injEq] at herr
      exact herr ▸ readFrames_error_msg bytes hcnt bcnt f 15 e2 hrd
    · simp only [hrd] at herr
      exact absurd herr (by simp)

/-- C5 witness: a minimal intact payload (`N = 2`, one frame, `H = B = 0`)
decodes successfully and satisfies every header condition. -/
theorem decodeFramepack_spec_witness :
    decodeFramepack
        [72, 78, 70, 80, 118, 49, 0, 2, 0, 1, 0, 0, 0, 0, 0, 0, 0, 0, 0, 0, 0]
        ⟨0, 0, 0, 0, 1, 0, 60, 120⟩ = .ok ⟨2, 1, 0, 0, [([], [])]⟩ ∧
    (7 ≤ ([72, 78, 70, 80, 118, 49, 0, 2, 0, 1, 0, 0, 0, 0, 0, 0, 0, 0, 0, 0, 0] :
        List ℕ).length ∧
      ([72, 78, 70, 80, 118, 49, 0, 2, 0, 1, 0, 0, 0, 0, 0, 0, 0, 0, 0, 0, 0] :
        List ℕ).take 7 = hnfpMagic ∧
      parseHeader [72, 78, 70, 80, 118, 49, 0, 2, 0, 1, 0, 0, 0, 0, 0, 0, 0, 0, 0, 0, 0] =
        some (2, 1, 0, 0) ∧
      0 < 2 ∧ 0 < 1 ∧
      isPowerOfTwo 2 = true ∧
      requiredSize 1 0 0 ≤ ([72, 78, 70, 80, 118, 49, 0, 2, 0, 1, 0, 0, 0, 0, 0,
        0, 0, 0, 0, 0, 0] : List ℕ).length ∧
      ([([], [])] : List (List ℕ × List ℤ)).length = 1) :=
  ⟨by rfl,
    (decodeFramepack_spec
      [72, 78, 70, 80, 118, 49, 0, 2, 0, 1, 0, 0, 0, 0, 0, 0, 0, 0, 0, 0, 0]
      ⟨0, 0, 0, 0, 1, 0, 60, 120⟩).1 ⟨2, 1, 0, 0, [([], [])]⟩ (by rfl)⟩

theorem stdAddChar_conj {N : ℕ} [NeZero N] (x : ZMod N) :
    (starRingEnd ℂ) (ZMod.stdAddChar x) = ZMod.stdAddChar (-x) := by
  have hx : (((x.val : ℤ) : ZMod N)) = x := by
    rw [Int.cast_natCast, ZMod.natCast_zmod_val]
  have hnx : (((-(x.val : ℤ) : ℤ) : ZMod N)) = -x := by
    rw [Int.cast_neg, Int.cast_natCast, ZMod.natCast_zmod_val]
  rw [← hnx]
  conv_lhs => rw [← hx]
  rw [ZMod.stdAddChar_coe, ZMod.stdAddChar_coe, ← Complex.exp_conj]
  congr 1
  simp only [map_div₀, map_mul, Complex.conj_I, Complex.conj_ofReal, map_ofNat,
    map_natCast, map_intCast]
  push_cast
  ring

theorem dft_conj {N : ℕ} [NeZero N] (Φ : ZMod N → ℂ) (k : ZMod N) :
    (starRingEnd ℂ) (ZMod.dft Φ k) =
      ZMod.dft (fun j => (starRingEnd ℂ) (Φ j)) (-k) := by
  simp only [ZMod.dft_apply, map_sum, smul_eq_mul, map_mul]
  apply Finset.sum_congr rfl
  intro j _
  rw [stdAddChar_conj]
  congr 2
  ring

theorem dft_real_of_even_real {N : ℕ} [NeZero N] {Φ : ZMod N → ℂ}
    (hre : ∀ j, (starRingEnd ℂ) (Φ j) = Φ j) (hev : Function.Even Φ) (k : ZMod N) :
    (starRingEnd ℂ) (ZMod.dft Φ k) = ZMod.dft Φ k := by
  rw [dft_conj]
  have h1 : (fun j => (starRingEnd ℂ) (Φ j)) = Φ := funext hre
  rw [h1]
  exact ZMod.dft_even_iff.mpr hev k

theorem dft_inv_smul_dft_neg {N : ℕ} [NeZero N] (Φ : ZMod N → ℂ) (k : ZMod N) :
    ZMod.dft (fun n => (N : ℂ)⁻¹ * ZMod.dft Φ (-n)) k = Φ k := by
  have h1 : (fun n => (N : ℂ)⁻¹ * ZMod.dft Φ (-n)) =
      (N : ℂ)⁻¹ • (fun n => ZMod.dft Φ (-n)) := by
    funext n
    simp [smul_eq_mul]
  rw [h1, map_smul]
  have h2 : ZMod.dft (fun n => ZMod.dft Φ (-n)) = fun j => ZMod.dft (ZMod.dft Φ) (-j) :=
    ZMod.dft_comp_neg (ZMod.dft Φ)
  have h3 : ((N : ℂ)⁻¹ • ZMod.dft (fun n => ZMod.dft Φ (-n))) k =
      (N : ℂ)⁻¹ * ZMod.dft (ZMod.dft Φ) (-k) := by
    rw [h2]
    simp [smul_eq_mul]
  rw [h3, ZMod.dft_dft]
  simp only [neg_neg, smul_eq_mul]
  rw [← mul_assoc, inv_mul_cancel₀ (Nat.cast_ne_zero.mpr (NeZero.ne N)), one_mul]

theorem rfftBinIndex_neg {N : ℕ} [NeZero N] (k : ZMod N) :
    rfftBinIndex N (-k) = rfftBinIndex N k := by
  unfold rfftBinIndex
  rcases eq_or_ne k 0 with rfl | hk
  · simp
  · have hval : (-k).val = N - k.val := by
      rw [ZMod.neg_val]
      simp [hk]
    have hv0 : k.val ≠ 0 := fun h => hk ((ZMod.val_eq_zero k).mp h)
    have hlt : k.val < N := ZMod.val_lt k
    rw [hval]
    by_cases hj : k.val ≤ N / 2
    · rw [if_pos hj]
      split <;> omega
    · rw [if_neg hj, if_pos (by omega)]

theorem fullLogSpectrum_real {N : ℕ} [NeZero N] (mag : ℕ → ℝ) (k : ZMod N) :
    (starRingEnd ℂ) (fullLogSpectrum N mag k) = fullLogSpectrum N mag k := by
  unfold fullLogSpectrum
  exact Complex.conj_ofReal _

theorem fullLogSpectrum_even {N : ℕ} [NeZero N] (mag : ℕ → ℝ) :
    Function.Even (fullLogSpectrum N mag) := by
  intro k
  unfold fullLogSpectrum
  rw [rfftBinIndex_neg]

theorem cepstrum_even {N : ℕ} [NeZero N] (mag : ℕ → ℝ) :
    Function.Even (cepstrum N mag) := by
  intro n
  unfold cepstrum
  rw [neg_neg]
  congr 1
  exact (ZMod.dft_even_iff.mpr (fullLogSpectrum_even mag) n).symm

theorem cepstrum_real {N : ℕ} [NeZero N] (mag : ℕ → ℝ) (n : ZMod N) :
    (starRingEnd ℂ) (cepstrum N mag n) = cepstrum N mag n := by
  unfold cepstrum
  rw [map_mul]
  congr 1
  · simp
  · exact dft_real_of_even_real (fullLogSpectrum_real mag)
      (fullLogSpectrum_even mag) (-n)

theorem causalCepstrum_real {N : ℕ} [NeZero N] (mag : ℕ → ℝ) (n : ZMod N) :
    (starRingEnd ℂ) (causalCepstrum N mag n) = causalCepstrum N mag n := by
  unfold causalCepstrum
  split_ifs <;> simp [map_mul, cepstrum_real, map_ofNat]

theorem causalCepstrum_even_part {N : ℕ} [NeZero N] (mag : ℕ → ℝ)
    (hN : N % 2 = 0 ∨ N = 1) (n : ZMod N) :
    causalCepstrum N mag n + causalCepstrum N mag (-n) = 2 * cepstrum N mag n := by
  rcases eq_or_ne n 0 with rfl | hn0
  · rw [neg_zero]
    unfold causalCepstrum
    rw [if_pos (by simp)]
    ring
  · have hv0 : n.val ≠ 0 := fun h => hn0 ((ZMod.val_eq_zero n).mp h)
    have hvneg : (-n).val = N - n.val := by
      rw [ZMod.neg_val]
      simp [hn0]
    have hlt : n.val < N := ZMod.val_lt n
    unfold causalCepstrum
    by_cases h1 : n.val < N / 2
    · rw [if_neg hv0, if_pos h1]
      simp only [hvneg]
      rw [if_neg (by omega), if_neg (by omega), if_neg (by omega)]
      ring
    · by_cases h2 : n.val = N / 2
      · have hNeven : N % 2 = 0 := by
          rcases hN with h | h
          · exact h
          · omega
        have hneg : -n = n := by
          have hveq : (-n).val = n.val := by
            rw [hvneg]
            omega
          calc -n = (((-n).val : ℕ) : ZMod N) := (ZMod.natCast_zmod_val _).symm
            _ = ((n.val : ℕ) : ZMod N) := by rw [hveq]
            _ = n := ZMod.natCast_zmod_val _
        rw [hneg, if_neg hv0, if_neg h1, if_pos h2]
        ring
      · rw [if_neg hv0, if_neg h1, if_neg h2]
        simp only [hvneg]
        rw [if_neg (by omega), if_pos (by omega)]
        rw [show cepstrum N mag (-n) = cepstrum N mag n from cepstrum_even mag n]
        ring

theorem dft_cepstrum {N : ℕ} [NeZero N] (mag : ℕ → ℝ) (k : ZMod N) :
    ZMod.dft (cepstrum N mag) k = fullLogSpectrum N mag k := by
  unfold cepstrum
  exact dft_inv_smul_dft_neg (fullLogSpectrum N mag) k

theorem minPhaseLogSpectrum_conj {N : ℕ} [NeZero N] (mag : ℕ → ℝ) (k : ZMod N) :
    (starRingEnd ℂ) (minPhaseLogSpectrum N mag k) = minPhaseLogSpectrum N mag (-k) := by
  unfold minPhaseLogSpectrum
  rw [dft_conj]
  have hfun : (fun j => (starRingEnd ℂ) (causalCepstrum N mag j)) =
      causalCepstrum N mag := funext (causalCepstrum_real mag)
  rw [hfun]

theorem minPhaseLogSpectrum_re {N : ℕ} [NeZero N] (mag : ℕ → ℝ)
    (hN : N % 2 = 0 ∨ N = 1) (k : ZMod N) :
    (((minPhaseLogSpectrum N mag k).re : ℝ) : ℂ) = fullLogSpectrum N mag k := by
  have hsum : minPhaseLogSpectrum N mag k + minPhaseLogSpectrum N mag (-k) =
      2 * fullLogSpectrum N mag k := by
    unfold minPhaseLogSpectrum
    have hneg : ZMod.dft (causalCepstrum N mag) (-k) =
        ZMod.dft (fun j => causalCepstrum N mag (-j)) k :=
      (congrFun (ZMod.dft_comp_neg (causalCepstrum N mag)) k).symm
    rw [hneg]
    have hadd : ZMod.dft (causalCepstrum N mag) k +
        ZMod.dft (fun j => causalCepstrum N mag (-j)) k =
        ZMod.dft ((causalCepstrum N mag) + fun j => causalCepstrum N mag (-j)) k := by
      rw [map_add]
      rfl
    rw [hadd]
    have hfun : (causalCepstrum N mag) + (fun j => causalCepstrum N mag (-j)) =
        (2 : ℂ) • cepstrum N mag := by
      funext j
      have := causalCepstrum_even_part mag hN j
      simpa [Pi.add_apply, Pi.smul_apply, smul_eq_mul] using this
    rw [hfun, map_smul]
    simp only [Pi.smul_apply, smul_eq_mul]
    rw [dft_cepstrum]
  have hconj := Complex.add_conj (minPhaseLogSpectrum N mag k)
  rw [minPhaseLogSpectrum_conj] at hconj
  have h2 : (2 : ℂ) * ((minPhaseLogSpectrum N mag k).re : ℂ) =
      2 * fullLogSpectrum N mag k := by
    rw [← hsum, hconj]
    push_cast
    ring
  exact mul_left_cancel₀ (two_ne_zero) h2

theorem minPhaseSpectrum_eq_exp {N : ℕ} [NeZero N] (mag : ℕ → ℝ) (k : ZMod N) :
    minPhaseSpectrum N mag k = Complex.exp (minPhaseLogSpectrum N mag k) := by
  rw [Complex.exp_eq_exp_re_mul_sin_add_cos]
  unfold minPhaseSpectrum
  rw [Complex.ofReal_exp, Complex.ofReal_cos, Complex.ofReal_sin]

theorem minPhaseSpectrum_conj {N : ℕ} [NeZero N] (mag : ℕ → ℝ) (k : ZMod N) :
    (starRingEnd ℂ) (minPhaseSpectrum N mag k) = minPhaseSpectrum N mag (-k) := by
  rw [minPhaseSpectrum_eq_exp, minPhaseSpectrum_eq_exp, ← Complex.exp_conj,
    minPhaseLogSpectrum_conj]

theorem dft_minimumPhaseSignal {N : ℕ} [NeZero N] (mag : ℕ → ℝ) (k : ZMod N) :
    ZMod.dft (fun n => ((minimumPhaseSignal N mag n : ℝ) : ℂ)) k =
      minPhaseSpectrum N mag k := by
  have hyreal : ∀ n : ZMod N,
      (starRingEnd ℂ) ((N : ℂ)⁻¹ * ZMod.dft (minPhaseSpectrum N mag) (-n)) =
        (N : ℂ)⁻¹ * ZMod.dft (minPhaseSpectrum N mag) (-n) := by
    intro n
    rw [map_mul, dft_conj, neg_neg]
    congr 1
    · simp
    · have hfun : (fun j => (starRingEnd ℂ) (minPhaseSpectrum N mag j)) =
          (fun j => minPhaseSpectrum N mag (-j)) := by
        funext j
        exact minPhaseSpectrum_conj mag j
      rw [hfun]
      exact congrFun (ZMod.dft_comp_neg (minPhaseSpectrum N mag)) n
  have hofReal : (fun n : ZMod N => ((minimumPhaseSignal N mag n : ℝ) : ℂ)) =
      (fun n => (N : ℂ)⁻¹ * ZMod.dft (minPhaseSpectrum N mag) (-n)) := by
    funext n
    unfold minimumPhaseSignal
    exact Complex.conj_eq_iff_re.mp (hyreal n)
  rw [hofReal]
  exact dft_inv_smul_dft_neg (minPhaseSpectrum N mag) k

theorem minPhase_magnitude {N : ℕ} [NeZero N] (mag : ℕ → ℝ)
    (hN : N % 2 = 0 ∨ N = 1) (k : ZMod N) :
    magSpectrum N (minimumPhaseSignal N mag) k =
      max (mag (rfftBinIndex N k)) minPhaseEps := by
  unfold magSpectrum
  rw [dft_minimumPhaseSignal, minPhaseSpectrum_eq_exp, Complex.abs_exp]
  have hre : (minPhaseLogSpectrum N mag k).re =
      Real.log (max (mag (rfftBinIndex N k)) minPhaseEps) := by
    have := minPhaseLogSpectrum_re mag hN k
    unfold fullLogSpectrum at this
    exact_mod_cast this
  rw [hre]
  apply Real.exp_log
  have heps : (0 : ℝ) < minPhaseEps := by
    unfold minPhaseEps
    norm_num
  exact lt_of_lt_of_le heps (le_max_right _ _)

/-- C1: for every power-of-two `N` and non-negative magnitude array with
bins 0 and `N/2` zero, reconstructing a cycle via the minimum-phase routine
and taking the magnitude spectrum of the result reproduces the input
magnitudes to within the routine's floor `ε = 1e-12` at every bin
`k ≤ N/2` (exactly: the reconstructed magnitude is `max(mag k, ε)`). -/
theorem minimumPhase_roundTrip (N : ℕ) [NeZero N] (hpow : ∃ k : ℕ, N = 2 ^ k)
    (mag : ℕ → ℝ) (hnn : ∀ j, j ≤ N / 2 → 0 ≤ mag j)
    (h0 : mag 0 = 0) (hNy : mag (N / 2) = 0)
    (k : ZMod N) (hk : k.val ≤ N / 2) :
    |magSpectrum N (minimumPhaseSignal N mag) k - mag k.val| ≤ minPhaseEps := by
  have hN2 : N % 2 = 0 ∨ N = 1 := by
    obtain ⟨j, rfl⟩ := hpow
    cases j with
    | zero => right; rfl
    | succ j =>
      left
      rw [pow_succ]
      exact Nat.mul_mod_left _ 2
  have hbin : rfftBinIndex N k = k.val := by
    unfold rfftBinIndex
    rw [if_pos hk]
  rw [minPhase_magnitude mag hN2 k, hbin]
  have heps : (0 : ℝ) < minPhaseEps := by
    unfold minPhaseEps
    norm_num
  have hm := hnn k.val hk
  rcases le_or_lt minPhaseEps (mag k.val) with h | h
  · rw [max_eq_left h, sub_self, abs_zero]
    exact heps.le
  · rw [max_eq_right h.le, abs_of_nonneg (by linarith)]
    linarith

/-- C1 witness: `N = 4`, a unit harmonic in bin 1, checked at bin 1. -/
theorem minimumPhase_roundTrip_witness :
    ((∃ k : ℕ, 4 = 2 ^ k) ∧
      (∀ j : ℕ, j ≤ 4 / 2 → 0 ≤ (fun j : ℕ => if j = 1 then (1 : ℝ) else 0) j) ∧
      (fun j : ℕ => if j = 1 then (1 : ℝ) else 0) 0 = 0 ∧
      (fun j : ℕ => if j = 1 then (1 : ℝ) else 0) (4 / 2) = 0 ∧
      (1 : ZMod 4).val ≤ 4 / 2) ∧
    |magSpectrum 4 (minimumPhaseSignal 4 (fun j : ℕ => if j = 1 then (1 : ℝ) else 0)) 1 -
        (fun j : ℕ => if j = 1 then (1 : ℝ) else 0) (1 : ZMod 4).val| ≤ minPhaseEps :=
  ⟨⟨⟨2, rfl⟩, fun j _ => by by_cases hj : j = 1 <;> simp [hj], by norm_num, by norm_num,
      by decide⟩,
    minimumPhase_roundTrip 4 ⟨2, rfl⟩ (fun j : ℕ => if j = 1 then (1 : ℝ) else 0)
      (fun j _ => by by_cases hj : j = 1 <;> simp [hj]) (by norm_num) (by norm_num)
      1 (by decide)⟩

/-- C2: `minimumPhaseFromMagRfft` fails (returns `none`) exactly when `N` is
not a positive power of two or the magnitude array's length differs from
`N/2 + 1`; whenever it succeeds the output time-domain array has length
exactly `N`. -/
theorem minimumPhaseFromMagRfft_contract (magRfft : List ℝ) (N : ℤ) :
    (¬ ((∃ k : ℕ, N = 2 ^ k) ∧ magRfft.length = (N / 2 + 1).toNat) →
      minimumPhaseFromMagRfft magRfft N = none) ∧
    ((∃ k : ℕ, N = 2 ^ k) ∧ magRfft.length = (N / 2 + 1).toNat →
      ∃ out, minimumPhaseFromMagRfft magRfft N = some out ∧ out.length = N.toNat) := by
  have hlink : (∃ k : ℕ, N = 2 ^ k) ↔ (0 < N ∧ isPowerOfTwo N.toNat = true) := by
    constructor
    · rintro ⟨k, rfl⟩
      refine ⟨by positivity, ?_⟩
      rw [isPowerOfTwo_iff]
      refine ⟨k, ?_⟩
      have hcast : ((2 : ℤ) ^ k) = (((2 ^ k : ℕ)) : ℤ) := by push_cast; ring
      rw [hcast, Int.toNat_natCast]
    · rintro ⟨hpos, hp2⟩
      obtain ⟨k, hk⟩ := (isPowerOfTwo_iff _).mp hp2
      refine ⟨k, ?_⟩
      have hN : ((N.toNat : ℕ) : ℤ) = N := Int.toNat_of_nonneg (by omega)
      rw [← hN, hk]
      push_cast
      ring
  constructor
  · intro hnot
    unfold minimumPhaseFromMagRfft
    by_cases h0 : N ≤ 0
    · rw [if_pos h0]
    rw [if_neg h0]
    by_cases hlen : magRfft.length ≠ (N / 2 + 1).toNat
    · rw [if_pos hlen]
    rw [if_neg hlen]
    push_neg at hlen
    rw [dif_neg]
    intro hp2
    exact hnot ⟨hlink.mpr ⟨by omega, hp2⟩, hlen⟩
  · rintro ⟨hpow, hlen⟩
    obtain ⟨hpos, hp2⟩ := hlink.mp hpow
    unfold minimumPhaseFromMagRfft
    rw [if_neg (by omega), if_neg (by simp [hlen]), dif_pos hp2]
    exact ⟨_, rfl, by simp⟩

/-- C2 witness: `N = 4` with magnitude array `[0, 1, 0]` of length 3
succeeds and yields 4 samples. -/
theorem minimumPhaseFromMagRfft_contract_witness :
    ((∃ k : ℕ, (4 : ℤ) = 2 ^ k) ∧
      ([(0 : ℝ), 1, 0] : List ℝ).length = ((4 : ℤ) / 2 + 1).toNat) ∧
    ∃ out, minimumPhaseFromMagRfft [(0 : ℝ), 1, 0] 4 = some out ∧
      out.length = (4 : ℤ).toNat :=
  ⟨⟨⟨2, by norm_num⟩, by decide⟩,
    (minimumPhaseFromMagRfft_contract [(0 : ℝ), 1, 0] 4).2
      ⟨⟨2, by norm_num⟩, by decide⟩⟩

end Theorems

end GlkSynth
